import Mathlib

/-!
Verification of the combination-generation core of the `combinations-api`
repository (`src/combinations/combinations.service.ts` and
`src/database/database.service.ts`), shallowly embedded in Lean 4.

The service expands a list of group sizes into labelled groups
(`expandItems`), enumerates size-`length` subsets of the group labels by
backtracking (`choose`), takes the cartesian product of the chosen groups'
item lists (`cartesian`), concatenates the products
(`generateValidCombinations`), and wraps validation plus a transactional
persistence hand-off around it (`generateAndStore`, `withTransaction`).
-/

namespace CombinationsApi

/-- Item labels of one group: `{prefix}{1} … {prefix}{count}`, embedding the
inner loop `for (let i = 1; i <= count; i++) arr.push(`...`)` of
`expandItems`. -/
def itemLabels (pfx : String) (count : Nat) : List String :=
  (List.range count).map (fun j => pfx ++ toString (j + 1))

/-- The loop of `expandItems`: one `(prefix, items)` entry per input count,
with the character code incremented after each group
(`String.fromCharCode(codePoint++)`). JS `Map` preserves insertion order, so
it is embedded as an association list. -/
def expandItemsAux (codePoint : Nat) : List Nat → List (String × List String)
  | [] => []
  | count :: rest =>
    (String.mk [Char.ofNat codePoint], itemLabels (String.mk [Char.ofNat codePoint]) count)
      :: expandItemsAux (codePoint + 1) rest

/-- Embedding of `expandItems` from `combinations.service.ts`: `codePoint` starts at
`'A'.charCodeAt(0)`. -/
def expandItems (items : List Nat) : List (String × List String) :=
  expandItemsAux 'A'.toNat items

/-- Embedding of `groups.get(p)!`: lookup in the insertion-ordered map. The non-null
assertion never fires in the service (every looked-up prefix is a key), so
the `none` branch returns `[]`. -/
def mapGet (groups : List (String × List String)) (p : String) : List String :=
  match groups.find? (fun g => g.fst == p) with
  | some g => g.snd
  | none => []

/-- The `backtrack` closure of `choose`. `backtrack(start, path)` first
checks `path.length === combinationLength` and returns `[path]`; otherwise
it loops `i` over the remaining suffix, recursing on `path ++ [items[i]]`
with start `i + 1`. Unfolding the loop: for a non-empty suffix `x :: rest`
the results are those that extend `path` with `x` followed by those that
skip `x`, which (since the path length check fails) equal the backtrack on
`rest` with the unchanged path. -/
def chooseBT (k : Nat) : List String → List String → List (List String)
  | [], path => if path.length = k then [path] else []
  | x :: rest, path =>
    if path.length = k then [path]
    else chooseBT k rest (path ++ [x]) ++ chooseBT k rest path

/-- Embedding of `choose` from `combinations.service.ts`: `backtrack(0, [])`. -/
def choose (items : List String) (combinationLength : Nat) : List (List String) :=
  chooseBT combinationLength items []

/-- Embedding of `cartesian` from `combinations.service.ts`:
`itemGroups.reduce((acc, g) => acc.flatMap(prev => g.map(item => [...prev, item])), [[]])`. -/
def cartesian (itemGroups : List (List String)) : List (List String) :=
  itemGroups.foldl
    (fun accumulator currentGroup =>
      accumulator.flatMap (fun previousCombination =>
        currentGroup.map (fun item => previousCombination ++ [item])))
    [[]]

/-- Embedding of `generateValidCombinations` from `combinations.service.ts`: choose every
size-`length` prefix subset, look up each prefix's item list, cross-product,
and concatenate in choose order. -/
def generateValidCombinations
    (groups : List (String × List String)) (combinationLength : Nat) :
    List (List String) :=
  (choose (groups.map Prod.fst) combinationLength).flatMap
    (fun prefixSet => cartesian (prefixSet.map (fun p => mapGet groups p)))

/-- Lexicographic comparison of character lists by code point, the order JS
`Array.prototype.sort()` applies to these ASCII item labels (it compares
UTF-16 code units, which agree with code points here). -/
def charsLe : List Char → List Char → Bool
  | [], _ => true
  | _ :: _, [] => false
  | a :: as, b :: bs =>
    if a.toNat < b.toNat then true
    else if b.toNat < a.toNat then false
    else charsLe as bs

/-- String comparison used by the JS default sort. -/
def strLe (a b : String) : Bool :=
  charsLe a.data b.data

/-- The storage key computed in `insertCombinations`
(`[...c].sort().join('|')`): sort the item labels in the JS default string
order, join with `|`. -/
def combinationKey (c : List String) : String :=
  String.intercalate "|" (List.insertionSort (fun a b => strLe a b = true) c)

deriving instance DecidableEq for Except

/-- Observable persistence events of `generateAndStore`'s hand-off
(`withTransaction` acquires a connection and begins a transaction; the
callback inserts the response row, the items, and the combinations; then
commit and release). -/
inductive DbEvent where
  | acquireConn
  | beginTx
  | insertResponse
  | insertItems
  | insertCombinations
  | commitTx
  | releaseConn
deriving DecidableEq, Repr

/-- The value returned by `generateAndStore`: `{ id, combination }` with
`id : number | null`. -/
structure GenResult where
  id : Option Nat
  combination : List (List String)
deriving DecidableEq, Repr

/-- Embedding of `generateAndStore` from `combinations.service.ts`, with the database
modelled by the fresh identifier `newId` that `insertResponse` would return
and by the emitted event trace. `items` is `Option`al so that the
`!Array.isArray(items)` disjunct (a non-array payload) is representable.
Business-rule failures are `Except.error` carrying the
`BadRequestException` message and an empty event trace (they are thrown
before any persistence call). The short-circuit compares `length` against
`groups.size`, the number of map entries. -/
def generateAndStore (newId : Nat) (items : Option (List Nat)) (len : Int) :
    Except String GenResult × List DbEvent :=
  if len < 1 then (Except.error "length must be >= 1", [])
  else
    match items with
    | none => (Except.error "items must be a non-empty array", [])
    | some l =>
      if l.isEmpty then (Except.error "items must be a non-empty array", [])
      else
        let groups := expandItems l
        if (groups.length : Int) < len then (Except.ok ⟨none, []⟩, [])
        else
          (Except.ok ⟨some newId, generateValidCombinations groups len.toNat⟩,
           [DbEvent.acquireConn, DbEvent.beginTx, DbEvent.insertResponse,
            DbEvent.insertItems, DbEvent.insertCombinations,
            DbEvent.commitTx, DbEvent.releaseConn])

/-- Connection-level events of `withTransaction` in
`database.service.ts`. -/
inductive TxEvent where
  | acquire
  | begin
  | commit
  | rollback
  | release
deriving DecidableEq, Repr

/-- Embedding of `withTransaction` from `database.service.ts`, with the callback's
outcome abstracted as an `Except`: acquire a connection, begin, run the
callback; on success commit and return its value, on failure roll back and
rethrow; release the connection in `finally` on both paths. -/
def withTransaction (fnResult : Except String Nat) :
    Except String Nat × List TxEvent :=
  match fnResult with
  | Except.ok v =>
    (Except.ok v, [TxEvent.acquire, TxEvent.begin, TxEvent.commit, TxEvent.release])
  | Except.error e =>
    (Except.error e, [TxEvent.acquire, TxEvent.begin, TxEvent.rollback, TxEvent.release])

/-- The first 26 group labels named by the specification: the Latin
alphabet, in order. -/
def latinAlphabet : List Char :=
  "ABCDEFGHIJKLMNOPQRSTUVWXYZ".toList

/-- The i-th letter of the Latin alphabet as a one-character string
(defined for `i < 26`). -/
def latinLetter (i : Nat) : String :=
  String.mk [latinAlphabet.getD i '?']

example : expandItems [1, 2, 1] =
    [("A", ["A1"]), ("B", ["B1", "B2"]), ("C", ["C1"])] := by decide

example : choose ["A", "B", "C"] 2 = [["A", "B"], ["A", "C"], ["B", "C"]] := by decide

example : cartesian [["A1"], ["B1", "B2"]] = [["A1", "B1"], ["A1", "B2"]] := by decide

example : cartesian [] = [[]] := by decide

example : generateValidCombinations (expandItems [1, 2, 1]) 2 =
    [["A1", "B1"], ["A1", "B2"], ["A1", "C1"], ["B1", "C1"], ["B2", "C1"]] := by decide

example : (generateValidCombinations (expandItems [3, 2, 1]) 2).length = 11 := by decide

example : combinationKey ["B1", "A1"] = "A1|B1" := by decide

example : (generateAndStore 1 (some [1, 1]) 3) = (Except.ok ⟨none, []⟩, []) := by decide

/-- Once the path is longer than `k` the backtracking can never succeed. -/
theorem chooseBT_gt (k : Nat) :
    ∀ (suffix path : List String), k < path.length →
      chooseBT k suffix path = []
  | [], path, h => by
    have hp : path.length ≠ k := by omega
    simp [chooseBT, hp]
  | x :: rest, path, h => by
    have hp : path.length ≠ k := by omega
    have h1 : k < (path ++ [x]).length := by simp; omega
    simp [chooseBT, hp, chooseBT_gt k rest (path ++ [x]) h1, chooseBT_gt k rest path h]

/-- Every result of the backtracking extends the current path. -/
theorem chooseBT_shape (k : Nat) :
    ∀ (suffix path S : List String), S ∈ chooseBT k suffix path →
      ∃ t, S = path ++ t
  | [], path, S, h => by
    by_cases hp : path.length = k
    · simp [chooseBT, hp] at h
      exact ⟨[], by simp [h]⟩
    · simp [chooseBT, hp] at h
  | x :: rest, path, S, h => by
    by_cases hp : path.length = k
    · simp [chooseBT, hp] at h
      exact ⟨[], by simp [h]⟩
    · simp only [chooseBT, hp, if_false, List.mem_append] at h
      rcases h with h | h
      · obtain ⟨t, ht⟩ := chooseBT_shape k rest (path ++ [x]) S h
        exact ⟨x :: t, by simp [ht]⟩
      · exact chooseBT_shape k rest path S h

/-- Count of the backtracking results: a Pascal-triangle recurrence, giving
the binomial coefficient. -/
theorem chooseBT_length (k : Nat) :
    ∀ (suffix path : List String), path.length ≤ k →
      (chooseBT k suffix path).length = suffix.length.choose (k - path.length)
  | [], path, h => by
    by_cases hp : path.length = k
    · simp [chooseBT, hp]
    · have h0 : 0 < k - path.length := by omega
      simp [chooseBT, hp, Nat.choose_eq_zero_of_lt h0]
  | x :: rest, path, h => by
    by_cases hp : path.length = k
    · simp [chooseBT, hp]
    · have h1 : (path ++ [x]).length ≤ k := by simp; omega
      have e1 := chooseBT_length k rest (path ++ [x]) h1
      have e2 := chooseBT_length k rest path h
      have hk : k - path.length = (k - (path ++ [x]).length) + 1 := by simp; omega
      simp only [chooseBT, hp, if_false, List.length_append, e1, e2, hk,
        List.length_cons, Nat.choose_succ_succ]

/-- Membership characterization of the backtracking: the results are exactly
`path ++ t` for the sublists `t` of the suffix of the right length. -/
theorem chooseBT_mem (k : Nat) :
    ∀ (suffix path S : List String), path.length ≤ k →
      (S ∈ chooseBT k suffix path ↔
        ∃ t, t.Sublist suffix ∧ t.length = k - path.length ∧ S = path ++ t)
  | [], path, S, h => by
    by_cases hp : path.length = k
    · constructor
      · intro hS
        rw [chooseBT, if_pos hp] at hS
        simp only [List.mem_singleton] at hS
        exact ⟨[], List.Sublist.refl [], by simp; omega, by simp [hS]⟩
      · rintro ⟨t, hsub, hlen, rfl⟩
        have ht : t = [] := List.sublist_nil.mp hsub
        rw [chooseBT, if_pos hp]
        simp [ht]
    · constructor
      · intro hS
        rw [chooseBT, if_neg hp] at hS
        simp at hS
      · rintro ⟨t, hsub, hlen, rfl⟩
        have ht : t = [] := List.sublist_nil.mp hsub
        rw [ht] at hlen
        simp at hlen
        have : False := by omega
        exact this.elim
  | x :: rest, path, S, h => by
    by_cases hp : path.length = k
    · constructor
      · intro hS
        rw [chooseBT, if_pos hp] at hS
        simp only [List.mem_singleton] at hS
        exact ⟨[], List.nil_sublist _, by simp; omega, by simp [hS]⟩
      · rintro ⟨t, hsub, hlen, rfl⟩
        have ht : t = [] := by
          apply List.length_eq_zero.mp
          omega
        rw [chooseBT, if_pos hp]
        simp [ht]
    · have h1 : (path ++ [x]).length ≤ k := by
        simp only [List.length_append, List.length_cons, List.length_nil]
        omega
      constructor
      · intro hS
        rw [chooseBT, if_neg hp] at hS
        rcases List.mem_append.mp hS with hS' | hS'
        · obtain ⟨t, hsub, hlen, hEq⟩ := (chooseBT_mem k rest (path ++ [x]) S h1).mp hS'
          refine ⟨x :: t, List.sublist_cons_iff.mpr (Or.inr ⟨t, rfl, hsub⟩), ?_, ?_⟩
          · simp only [List.length_append, List.length_cons, List.length_nil] at hlen ⊢
            omega
          · rw [hEq]
            simp
        · obtain ⟨t, hsub, hlen, hEq⟩ := (chooseBT_mem k rest path S h).mp hS'
          exact ⟨t, hsub.trans (List.sublist_cons_self x rest), hlen, hEq⟩
      · rintro ⟨t, hsub, hlen, rfl⟩
        rw [chooseBT, if_neg hp]
        apply List.mem_append.mpr
        rcases List.sublist_cons_iff.mp hsub with hsub' | ⟨r, hr1, hr2⟩
        · exact Or.inr ((chooseBT_mem k rest path _ h).mpr ⟨t, hsub', hlen, rfl⟩)
        · refine Or.inl ((chooseBT_mem k rest (path ++ [x]) _ h1).mpr ⟨r, hr2, ?_, ?_⟩)
          · simp only [List.length_append, List.length_cons, List.length_nil]
            rw [hr1] at hlen
            simp only [List.length_cons] at hlen
            omega
          · rw [hr1]
            simp

/-- The backtracking results are pairwise distinct when the suffix has no
duplicates. -/
theorem chooseBT_nodup (k : Nat) :
    ∀ (suffix path : List String), suffix.Nodup →
      (chooseBT k suffix path).Nodup
  | [], path, _ => by
    by_cases hp : path.length = k <;> simp [chooseBT, hp]
  | x :: rest, path, hnd => by
    by_cases hp : path.length = k
    · simp [chooseBT, hp]
    · have hrest : rest.Nodup := (List.nodup_cons.mp hnd).2
      have hx : x ∉ rest := (List.nodup_cons.mp hnd).1
      simp only [chooseBT, hp, if_false]
      rw [List.nodup_append]
      refine ⟨chooseBT_nodup k rest (path ++ [x]) hrest,
        chooseBT_nodup k rest path hrest, ?_⟩
      intro S hS1 hS2
      by_cases hle : path.length + 1 ≤ k
      · obtain ⟨t1, hsub1, hlen1, hS1'⟩ :=
          (chooseBT_mem k rest (path ++ [x]) S (by simpa using hle)).mp hS1
        obtain ⟨t2, hsub2, hlen2, hS2'⟩ :=
          (chooseBT_mem k rest path S (by omega)).mp hS2
        rw [hS1'] at hS2'
        rw [List.append_assoc] at hS2'
        have ht2 : x :: t1 = t2 := by
          have := List.append_cancel_left hS2'
          simpa using this
        have : x ∈ rest := hsub2.subset (by rw [← ht2]; simp)
        exact hx this
      · have : chooseBT k rest (path ++ [x]) = [] := by
          apply chooseBT_gt
          simp
          omega
        rw [this] at hS1
        simp at hS1

/-- The enumeration `choose labels k` produces exactly `C(n, k)` results. -/
theorem choose_length_eq (labels : List String) (k : Nat) :
    (choose labels k).length = labels.length.choose k := by
  have := chooseBT_length k labels [] (Nat.zero_le k)
  simpa [choose] using this

/-- Membership in `choose labels k`: exactly the length-`k` sublists. -/
theorem choose_mem_iff (labels : List String) (k : Nat) (c : List String) :
    c ∈ choose labels k ↔ c.Sublist labels ∧ c.length = k := by
  have := chooseBT_mem k labels [] c (Nat.zero_le k)
  simp only [choose, this, List.length_nil, Nat.sub_zero, List.nil_append]
  constructor
  · rintro ⟨t, hsub, hlen, rfl⟩
    exact ⟨hsub, hlen⟩
  · rintro ⟨hsub, hlen⟩
    exact ⟨c, hsub, hlen, rfl⟩

/-- The enumeration `choose labels k` has no duplicate results when the labels are
distinct. -/
theorem choose_nodup (labels : List String) (k : Nat) (hnd : labels.Nodup) :
    (choose labels k).Nodup :=
  chooseBT_nodup k labels [] hnd

/-- Structural (head-first) form of the cartesian product, used to reason
about the `reduce`-based `cartesian`. -/
def cartesianRec : List (List String) → List (List String)
  | [] => [[]]
  | g :: rest => g.flatMap (fun x => (cartesianRec rest).map (fun t => x :: t))

/-- The `reduce` accumulator of `cartesian` distributes over the structural
product. -/
theorem cartesian_foldl (gs : List (List String)) :
    ∀ acc : List (List String),
      gs.foldl
        (fun accumulator currentGroup =>
          accumulator.flatMap (fun previousCombination =>
            currentGroup.map (fun item => previousCombination ++ [item])))
        acc
      = acc.flatMap (fun prev => (cartesianRec gs).map (fun t => prev ++ t)) := by
  induction gs with
  | nil =>
    intro acc
    simp [cartesianRec]
  | cons g rest ih =>
    intro acc
    rw [List.foldl_cons, ih]
    simp only [cartesianRec, List.flatMap_map, List.map_flatMap, List.map_map]
    rw [List.flatMap_assoc]
    apply List.flatMap_congr
    intro prev _
    simp [Function.comp_def, List.flatMap_map, List.map_map]

/-- The function `cartesian` equals the structural product. -/
theorem cartesian_eq_rec (gs : List (List String)) :
    cartesian gs = cartesianRec gs := by
  rw [cartesian, cartesian_foldl gs [[]]]
  simp

/-- Size of the structural product: the product of the group sizes. -/
theorem cartesianRec_length (gs : List (List String)) :
    (cartesianRec gs).length = (gs.map List.length).prod := by
  induction gs with
  | nil => simp [cartesianRec]
  | cons g rest ih =>
    simp [cartesianRec, List.length_flatMap, Function.comp_def, ih, List.map_const]

/-- Membership in the structural product: exactly the pointwise selections,
one item from each group in position. -/
theorem cartesianRec_mem (gs : List (List String)) (c : List String) :
    c ∈ cartesianRec gs ↔ List.Forall₂ (fun x g => x ∈ g) c gs := by
  induction gs generalizing c with
  | nil =>
    simp [cartesianRec, List.forall₂_nil_right_iff]
  | cons g rest ih =>
    simp only [cartesianRec, List.mem_flatMap, List.mem_map,
      List.forall₂_cons_right_iff]
    constructor
    · rintro ⟨x, hx, t, ht, rfl⟩
      exact ⟨x, t, hx, (ih t).mp ht, rfl⟩
    · rintro ⟨x, t, hx, ht, rfl⟩
      exact ⟨x, hx, t, (ih t).mpr ht, rfl⟩

/-- The structural product has no duplicate tuples when each group has no
duplicate items. -/
theorem cartesianRec_nodup (gs : List (List String)) (h : ∀ g ∈ gs, g.Nodup) :
    (cartesianRec gs).Nodup := by
  induction gs with
  | nil => simp [cartesianRec]
  | cons g rest ih =>
    rw [cartesianRec, List.nodup_flatMap]
    constructor
    · intro x _
      exact ((ih (fun g' hg' => h g' (List.mem_cons_of_mem g hg'))).map
        (fun a b hab => by injection hab))
    · have hg : g.Nodup := h g (List.mem_cons_self g rest)
      apply hg.imp
      intro a b hab
      intro S hS1 hS2
      simp only [List.mem_map] at hS1 hS2
      obtain ⟨t1, _, rfl⟩ := hS1
      obtain ⟨t2, _, ht2⟩ := hS2
      injection ht2.symm with h1 _
      exact hab h1

/-- Below the surrogate range, `Char.ofNat` round-trips through
`Char.toNat`. -/
theorem charOfNat_toNat (n : Nat) (h : n < 55296) : (Char.ofNat n).toNat = n := by
  have hv : n.isValidChar := Or.inl h
  rw [Char.ofNat, dif_pos hv, Char.ofNatAux]
  simp [Char.toNat, UInt32.toNat, BitVec.ofNatLt]

/-- Below the surrogate range, `Char.ofNat` is injective. -/
theorem charOfNat_inj {a b : Nat} (ha : a < 55296) (hb : b < 55296)
    (h : Char.ofNat a = Char.ofNat b) : a = b := by
  have := congrArg Char.toNat h
  rwa [charOfNat_toNat a ha, charOfNat_toNat b hb] at this

/-- Each group owns exactly `count` item labels. -/
theorem itemLabels_length (pfx : String) (count : Nat) :
    (itemLabels pfx count).length = count := by
  simp [itemLabels]

/-- The expansion produces one map entry per input element. -/
theorem expandItemsAux_length (cp : Nat) :
    ∀ items : List Nat, (expandItemsAux cp items).length = items.length
  | [] => rfl
  | _ :: rest => by
    simp [expandItemsAux, expandItemsAux_length (cp + 1) rest]

/-- The i-th entry of the expansion: the label is the character with code
`cp + i` and the items are that label's numbered item labels. -/
theorem expandItemsAux_getD (cp : Nat) :
    ∀ (items : List Nat) (i : Nat), i < items.length →
      (expandItemsAux cp items).getD i ("", []) =
        (String.mk [Char.ofNat (cp + i)],
          itemLabels (String.mk [Char.ofNat (cp + i)]) (items.getD i 0))
  | [], i, h => by simp at h
  | c :: rest, 0, _ => by
    simp [expandItemsAux]
  | c :: rest, i + 1, h => by
    simp only [expandItemsAux, List.getD_cons_succ]
    rw [expandItemsAux_getD (cp + 1) rest i (by simpa using h)]
    have hcp : cp + 1 + i = cp + (i + 1) := by omega
    rw [hcp]

/-- The total number of item labels over all groups is the sum of the input
counts. -/
theorem expandItemsAux_sum (cp : Nat) :
    ∀ items : List Nat,
      ((expandItemsAux cp items).map (fun g => g.snd.length)).sum = items.sum
  | [] => rfl
  | c :: rest => by
    simp [expandItemsAux, itemLabels_length, expandItemsAux_sum (cp + 1) rest]

/-- Every group label of the expansion is a single character with code
`cp + j` for some input position `j`. -/
theorem expandItemsAux_keys (cp : Nat) :
    ∀ (items : List Nat) (s : String), s ∈ (expandItemsAux cp items).map Prod.fst →
      ∃ j, j < items.length ∧ s = String.mk [Char.ofNat (cp + j)]
  | [], s, h => by simp [expandItemsAux] at h
  | c :: rest, s, h => by
    simp only [expandItemsAux, List.map_cons, List.mem_cons] at h
    rcases h with h | h
    · exact ⟨0, by simp, by simpa using h⟩
    · obtain ⟨j, hj, hs⟩ := expandItemsAux_keys (cp + 1) rest s h
      have hcp : cp + 1 + j = cp + (j + 1) := by omega
      exact ⟨j + 1, by simpa using hj, by rw [hs, hcp]⟩

/-- While the character codes stay below the surrogate range, the group
labels are pairwise distinct. -/
theorem expandItemsAux_keys_nodup :
    ∀ (items : List Nat) (cp : Nat), cp + items.length ≤ 55296 →
      ((expandItemsAux cp items).map Prod.fst).Nodup
  | [], _, _ => by simp [expandItemsAux]
  | c :: rest, cp, h => by
    simp only [expandItemsAux, List.map_cons, List.nodup_cons]
    constructor
    · intro hmem
      obtain ⟨j, hj, hs⟩ := expandItemsAux_keys (cp + 1) rest _ hmem
      have hchar : Char.ofNat cp = Char.ofNat (cp + 1 + j) := by
        have := congrArg String.data hs
        simpa using this
      have : cp = cp + 1 + j := by
        apply charOfNat_inj ?_ ?_ hchar
        · simp only [List.length_cons] at h
          omega
        · simp only [List.length_cons] at h
          omega
      omega
    · exact expandItemsAux_keys_nodup rest (cp + 1) (by simp at h ⊢; omega)

/-- The group labels of `expandItems` are pairwise distinct for any input
short enough that the character codes stay below the surrogate range (the
regime where the embedding of JS one-code-unit strings is faithful). -/
theorem expandItems_keys_nodup (items : List Nat) (h : items.length ≤ 55231) :
    ((expandItems items).map Prod.fst).Nodup := by
  apply expandItemsAux_keys_nodup
  have : 'A'.toNat = 65 := by decide
  omega

/-- Count of the cartesian product: the product of the group sizes. -/
theorem cartesian_length (gs : List (List String)) :
    (cartesian gs).length = (gs.map List.length).prod := by
  rw [cartesian_eq_rec, cartesianRec_length]

/-- The first 26 single-character codes starting at `'A'` spell the Latin
alphabet. -/
theorem charOfNat_latin (i : Nat) (h : i < 26) :
    String.mk [Char.ofNat ('A'.toNat + i)] = latinLetter i := by
  revert h
  have : 'A'.toNat = 65 := by decide
  rw [this]
  revert i
  decide

/-- C3: for distinct labels, `choose labels k` returns exactly `C(n, k)`
subsequences, each of length `k`, pairwise distinct, none missing, each
preserving the relative order of `labels`; for `k > n` the result is empty;
for `k = n` it is exactly `[labels]`. -/
theorem choose_spec (labels : List String) (k : Nat) (hnd : labels.Nodup) :
    (choose labels k).length = labels.length.choose k ∧
    (∀ c ∈ choose labels k, c.length = k ∧ c.Sublist labels) ∧
    (choose labels k).Nodup ∧
    (∀ s : List String, s.Sublist labels → s.length = k → s ∈ choose labels k) ∧
    (labels.length < k → choose labels k = []) ∧
    (k = labels.length → choose labels k = [labels]) := by
  refine ⟨choose_length_eq labels k, ?_, choose_nodup labels k hnd, ?_, ?_, ?_⟩
  · intro c hc
    have h := (choose_mem_iff labels k c).mp hc
    exact ⟨h.2, h.1⟩
  · intro s hs hl
    exact (choose_mem_iff labels k s).mpr ⟨hs, hl⟩
  · intro hgt
    apply List.length_eq_zero.mp
    rw [choose_length_eq]
    exact Nat.choose_eq_zero_of_lt hgt
  · intro hk
    subst hk
    have hlen : (choose labels labels.length).length = 1 := by
      rw [choose_length_eq, Nat.choose_self]
    have hmem : labels ∈ choose labels labels.length :=
      (choose_mem_iff _ _ _).mpr ⟨List.Sublist.refl labels, rfl⟩
    obtain ⟨a, ha⟩ := List.length_eq_one.mp hlen
    rw [ha] at hmem ⊢
    simp only [List.mem_singleton] at hmem
    rw [hmem]

/-- Witness for C3 at `labels = [A, B, C]`, `k = 2`. -/
theorem choose_spec_witness :
    (choose ["A", "B", "C"] 2).length = 3 ∧
    ["A", "C"] ∈ choose ["A", "B", "C"] 2 ∧
    choose ["A", "B", "C"] 3 = [["A", "B", "C"]] := by
  have h2 := choose_spec ["A", "B", "C"] 2 (by decide)
  have h3 := choose_spec ["A", "B", "C"] 3 (by decide)
  refine ⟨by rw [h2.1]; decide, ?_, ?_⟩
  · exact h2.2.2.2.1 ["A", "C"] (by decide) (by decide)
  · exact h3.2.2.2.2.2 (by decide)

/-- C4: `cartesian` over `m` item sequences returns exactly the product of
the sizes; every tuple has length `m`; the tuples are exactly the pointwise
selections (position `i` drawn from input sequence `i`), each covered
exactly once (no duplicates when the inputs have none); the empty input
yields the single empty tuple. -/
theorem cartesian_spec (gs : List (List String)) :
    (cartesian gs).length = (gs.map List.length).prod ∧
    (∀ c ∈ cartesian gs, c.length = gs.length) ∧
    (∀ c : List String, c ∈ cartesian gs ↔ List.Forall₂ (fun x g => x ∈ g) c gs) ∧
    ((∀ g ∈ gs, g.Nodup) → (cartesian gs).Nodup) ∧
    cartesian [] = [[]] := by
  refine ⟨cartesian_length gs, ?_, ?_, ?_, rfl⟩
  · intro c hc
    rw [cartesian_eq_rec] at hc
    exact ((cartesianRec_mem gs c).mp hc).length_eq
  · intro c
    rw [cartesian_eq_rec]
    exact cartesianRec_mem gs c
  · intro h
    rw [cartesian_eq_rec]
    exact cartesianRec_nodup gs h

/-- Witness for C4 at `gs = [[A1], [B1, B2]]`. -/
theorem cartesian_spec_witness :
    ["A1", "B1"].length = 2 ∧
    (["A1", "B1"] ∈ cartesian [["A1"], ["B1", "B2"]]) ∧
    (cartesian [["A1"], ["B1", "B2"]]).Nodup := by
  have h := cartesian_spec [["A1"], ["B1", "B2"]]
  refine ⟨?_, ?_, h.2.2.2.1 (by decide)⟩
  · have hm : ["A1", "B1"] ∈ cartesian [["A1"], ["B1", "B2"]] := by decide
    exact h.2.1 ["A1", "B1"] hm
  · exact (h.2.2.1 ["A1", "B1"]).mpr
      (List.Forall₂.cons (by decide) (List.Forall₂.cons (by decide) List.Forall₂.nil))

/-- C5 (amended): for every non-empty input, the i-th group label is the
single character with code `'A' + i` — the i-th Latin letter whenever
`i < 26` — a group with count `c` owns exactly the items
`label ++ "1" … label ++ toString c` in order, and the total number of item
labels equals the sum of the input. -/
theorem expandItems_spec (items : List Nat) (hne : items ≠ []) :
    (expandItems items).length = items.length ∧
    (∀ i, i < items.length →
      ((expandItems items).getD i ("", [])).fst = String.mk [Char.ofNat ('A'.toNat + i)] ∧
      (i < 26 → ((expandItems items).getD i ("", [])).fst = latinLetter i) ∧
      ((expandItems items).getD i ("", [])).snd =
        (List.range (items.getD i 0)).map
          (fun j => ((expandItems items).getD i ("", [])).fst ++ toString (j + 1))) ∧
    ((expandItems items).map (fun g => g.snd.length)).sum = items.sum := by
  refine ⟨expandItemsAux_length _ items, ?_, expandItemsAux_sum _ items⟩
  intro i hi
  have hg := expandItemsAux_getD 'A'.toNat items i hi
  rw [expandItems, hg]
  refine ⟨rfl, fun h26 => charOfNat_latin i h26, ?_⟩
  rfl

/-- Witness for C5 at `items = [1, 2, 1]`, `i = 1`. -/
theorem expandItems_spec_witness :
    (expandItems [1, 2, 1]).length = 3 ∧
    ((expandItems [1, 2, 1]).getD 1 ("", [])).fst = latinLetter 1 ∧
    ((expandItems [1, 2, 1]).map (fun g => g.snd.length)).sum = 4 := by
  have h := expandItems_spec [1, 2, 1] (by decide)
  exact ⟨h.1, (h.2.1 1 (by decide)).2.1 (by decide), h.2.2⟩

/-- Counterexample to C5 as stated: on the valid 27-element input the 27th
group label is `"["`, which is not a letter of the Latin alphabet. -/
theorem expandItems_alphabet_counterexample :
    ((expandItems (List.replicate 27 1)).getD 26 ("", [])).fst = "[" ∧
    "[" ∉ latinAlphabet.map (fun c => String.mk [c]) := by decide

/-- Counting the orchestrator output as a sum over the chosen prefix subsets
of the products of group sizes. -/
theorem gVC_length_choose (groups : List (String × List String)) (k : Nat) :
    (generateValidCombinations groups k).length
      = ((choose (groups.map Prod.fst) k).map
          (fun S => (S.map (fun p => (mapGet groups p).length)).prod)).sum := by
  rw [generateValidCombinations, List.length_flatMap]
  congr 1
  simp [Function.comp_def, cartesian_length, List.map_map]

/-- For distinct labels the backtracking enumeration is a permutation of the
canonical enumeration of length-`k` sublists. -/
theorem choose_perm_sublistsLen (labels : List String) (k : Nat)
    (hnd : labels.Nodup) :
    (choose labels k).Perm (List.sublistsLen k labels) := by
  apply (List.perm_ext_iff_of_nodup (choose_nodup labels k hnd)
    (List.nodup_sublistsLen k hnd)).mpr
  intro S
  rw [choose_mem_iff, List.mem_sublistsLen]

/-- C2: the number of combinations returned by the orchestrator equals the
sum, over every size-`k` subset `S` of the group labels, of the product over
`p ∈ S` of the number of items of group `p`. -/
theorem gVC_count (groups : List (String × List String)) (k : Nat)
    (hnd : (groups.map Prod.fst).Nodup) (hk1 : 1 ≤ k)
    (hk2 : k ≤ (groups.filter (fun g => !g.snd.isEmpty)).length) :
    (generateValidCombinations groups k).length
      = ((List.sublistsLen k (groups.map Prod.fst)).map
          (fun S => (S.map (fun p => (mapGet groups p).length)).prod)).sum := by
  rw [gVC_length_choose]
  exact ((choose_perm_sublistsLen _ k hnd).map _).sum_eq

/-- Witness for C2 at `groups = expandItems [1, 2, 1]`, `k = 2`; the count
is the expected 5. -/
theorem gVC_count_witness :
    (generateValidCombinations (expandItems [1, 2, 1]) 2).length
      = ((List.sublistsLen 2 ((expandItems [1, 2, 1]).map Prod.fst)).map
          (fun S => (S.map (fun p => (mapGet (expandItems [1, 2, 1]) p).length)).prod)).sum ∧
    (generateValidCombinations (expandItems [1, 2, 1]) 2).length = 5 := by
  refine ⟨gVC_count (expandItems [1, 2, 1]) 2 (by decide) (by decide) (by decide), ?_⟩
  decide

/-- C7: every combination produced by the orchestrator has exactly `k` item
labels, and its labels are drawn pointwise from a duplicate-free size-`k`
subset of the group labels (hence from pairwise distinct groups). -/
theorem gVC_structure (groups : List (String × List String)) (k : Nat)
    (hnd : (groups.map Prod.fst).Nodup) (hk : 1 ≤ k) :
    ∀ c ∈ generateValidCombinations groups k,
      c.length = k ∧
      ∃ S : List String, S.Sublist (groups.map Prod.fst) ∧ S.Nodup ∧
        S.length = k ∧ List.Forall₂ (fun x p => x ∈ mapGet groups p) c S := by
  intro c hc
  rw [generateValidCombinations, List.mem_flatMap] at hc
  obtain ⟨S, hS, hcS⟩ := hc
  have hSmem := (choose_mem_iff _ k S).mp hS
  have hSnd : S.Nodup := hnd.sublist hSmem.1
  rw [cartesian_eq_rec] at hcS
  have hforall := (cartesianRec_mem _ c).mp hcS
  refine ⟨?_, S, hSmem.1, hSnd, hSmem.2, ?_⟩
  · have hlen := hforall.length_eq
    rw [List.length_map] at hlen
    rw [hlen, hSmem.2]
  · rwa [List.forall₂_map_right_iff] at hforall

/-- Witness for C7 at `groups = expandItems [1, 2, 1]`, `k = 2`,
`c = [A1, B1]`. -/
theorem gVC_structure_witness :
    ["A1", "B1"].length = 2 ∧
    ∃ S : List String, S.Sublist ((expandItems [1, 2, 1]).map Prod.fst) ∧ S.Nodup ∧
      S.length = 2 ∧
      List.Forall₂ (fun x p => x ∈ mapGet (expandItems [1, 2, 1]) p) ["A1", "B1"] S :=
  gVC_structure (expandItems [1, 2, 1]) 2 (by decide) (by decide)
    ["A1", "B1"] (by decide)

/-- With the path already complete, backtracking returns just the path,
whatever the suffix. -/
theorem chooseBT_of_len (k : Nat) (suffix path : List String)
    (hp : path.length = k) : chooseBT k suffix path = [path] := by
  cases suffix <;> simp [chooseBT, hp]

/-- Dropping suffix elements on which the continuation vanishes does not
change the concatenated results of the backtracking enumeration. -/
theorem chooseBT_filter (k : Nat) (keep : String → Bool)
    (F : List String → List (List String))
    (hF : ∀ S x, x ∈ S → keep x = false → F S = []) :
    ∀ (suffix path : List String),
      (chooseBT k suffix path).flatMap F
        = (chooseBT k (suffix.filter keep) path).flatMap F
  | [], path => by simp
  | x :: rest, path => by
    by_cases hp : path.length = k
    · rw [chooseBT_of_len k (x :: rest) path hp,
        chooseBT_of_len k ((x :: rest).filter keep) path hp]
    · cases hkeep : keep x with
      | false =>
        have hfil : (x :: rest).filter keep = rest.filter keep := by
          simp [List.filter_cons, hkeep]
        have hnil : (chooseBT k rest (path ++ [x])).flatMap F = [] := by
          apply List.flatMap_eq_nil_iff.mpr
          intro S hS
          obtain ⟨t, ht⟩ := chooseBT_shape k rest (path ++ [x]) S hS
          apply hF S x ?_ hkeep
          rw [ht]
          simp
        rw [hfil]
        simp only [chooseBT, if_neg hp, List.flatMap_append, hnil, List.nil_append]
        exact chooseBT_filter k keep F hF rest path
      | true =>
        have hfil : (x :: rest).filter keep = x :: rest.filter keep := by
          simp [List.filter_cons, hkeep]
        rw [hfil]
        simp only [chooseBT, if_neg hp, List.flatMap_append]
        rw [chooseBT_filter k keep F hF rest (path ++ [x]),
          chooseBT_filter k keep F hF rest path]

/-- A cross product with an empty factor is empty. -/
theorem cartesian_of_mem_nil (gs : List (List String)) (h : [] ∈ gs) :
    cartesian gs = [] := by
  apply List.length_eq_zero.mp
  rw [cartesian_length]
  apply List.prod_eq_zero
  simp only [List.mem_map]
  exact ⟨[], h, rfl⟩

/-- Looking up a key whose value is non-empty is unaffected by filtering out
the empty-valued entries. -/
theorem mapGet_filter (groups : List (String × List String)) (p : String)
    (h : mapGet groups p ≠ []) :
    mapGet (groups.filter (fun g => !g.snd.isEmpty)) p = mapGet groups p := by
  induction groups with
  | nil => rfl
  | cons g rest ih =>
    cases hgp : g.fst == p with
    | true =>
      have hm : mapGet (g :: rest) p = g.snd := by
        simp [mapGet, List.find?, hgp]
      have hne : g.snd ≠ [] := by rwa [hm] at h
      have hse : g.snd.isEmpty = false := by
        cases hx : g.snd.isEmpty
        · rfl
        · exact absurd (List.isEmpty_iff.mp hx) hne
      have hfil : (g :: rest).filter (fun g => !g.snd.isEmpty)
          = g :: rest.filter (fun g => !g.snd.isEmpty) := by
        simp [List.filter_cons, hse]
      rw [hfil, hm]
      simp [mapGet, List.find?, hgp]
    | false =>
      have hstep : mapGet (g :: rest) p = mapGet rest p := by
        simp [mapGet, List.find?, hgp]
      rw [hstep] at h
      rw [hstep]
      cases hse : g.snd.isEmpty with
      | false =>
        have hfil : (g :: rest).filter (fun g => !g.snd.isEmpty)
            = g :: rest.filter (fun g => !g.snd.isEmpty) := by
          simp [List.filter_cons, hse]
        rw [hfil]
        have : mapGet (g :: rest.filter (fun g => !g.snd.isEmpty)) p
            = mapGet (rest.filter (fun g => !g.snd.isEmpty)) p := by
          simp [mapGet, List.find?, hgp]
        rw [this, ih h]
      | true =>
        have hfil : (g :: rest).filter (fun g => !g.snd.isEmpty)
            = rest.filter (fun g => !g.snd.isEmpty) := by
          simp [List.filter_cons, hse]
        rw [hfil, ih h]

/-- With distinct keys, the keys surviving the empty-group filter are the
keys whose looked-up value is non-empty. -/
theorem filter_keys (groups : List (String × List String))
    (hnd : (groups.map Prod.fst).Nodup) :
    (groups.filter (fun g => !g.snd.isEmpty)).map Prod.fst
      = (groups.map Prod.fst).filter (fun p => !(mapGet groups p).isEmpty) := by
  induction groups with
  | nil => rfl
  | cons g rest ih =>
    have hnd' : (rest.map Prod.fst).Nodup := (List.nodup_cons.mp (by simpa using hnd)).2
    have hnotin : g.fst ∉ rest.map Prod.fst := (List.nodup_cons.mp (by simpa using hnd)).1
    have hhead : mapGet (g :: rest) g.fst = g.snd := by
      simp [mapGet, List.find?]
    have htail : (rest.map Prod.fst).filter (fun p => !(mapGet (g :: rest) p).isEmpty)
        = (rest.map Prod.fst).filter (fun p => !(mapGet rest p).isEmpty) := by
      apply List.filter_congr'
      intro p hp
      have hne : (g.fst == p) = false :=
        beq_false_of_ne (fun he => hnotin (he ▸ hp))
      simp [mapGet, List.find?, hne]
    rw [List.map_cons, List.filter_cons, List.filter_cons, hhead, htail, ← ih hnd']
    cases hse : g.snd.isEmpty <;> simp [hse]

/-- The orchestrator ignores empty groups: restricting the mapping to the
groups with at least one item yields the same combination list. -/
theorem gVC_filter (groups : List (String × List String))
    (hnd : (groups.map Prod.fst).Nodup) (k : Nat) :
    generateValidCombinations groups k
      = generateValidCombinations (groups.filter (fun g => !g.snd.isEmpty)) k := by
  rw [generateValidCombinations, generateValidCombinations,
    filter_keys groups hnd]
  have hchoose :
      (choose (groups.map Prod.fst) k).flatMap
          (fun prefixSet => cartesian (prefixSet.map (fun p => mapGet groups p)))
        = (choose ((groups.map Prod.fst).filter
              (fun p => !(mapGet groups p).isEmpty)) k).flatMap
          (fun prefixSet => cartesian (prefixSet.map (fun p => mapGet groups p))) := by
    rw [choose, choose]
    apply chooseBT_filter
    intro S x hx hkeep
    apply cartesian_of_mem_nil
    simp only [List.mem_map]
    refine ⟨x, hx, ?_⟩
    simp only [Bool.not_eq_false', List.isEmpty_iff] at hkeep
    exact hkeep
  rw [hchoose]
  apply List.flatMap_congr
  intro S hS
  congr 1
  apply List.map_eq_map_iff.mpr
  intro p hp
  have hSsub := ((choose_mem_iff _ k S).mp hS).1
  have hpmem : p ∈ (groups.map Prod.fst).filter
      (fun p => !(mapGet groups p).isEmpty) := hSsub.subset hp
  have hne := (List.mem_filter.mp hpmem).2
  simp only [Bool.not_eq_true', List.isEmpty_eq_false] at hne
  exact (mapGet_filter groups p hne).symm

/-- C10: applied to the full `expandItems` mapping (size-0 groups included
as empty entries), the orchestrator returns the same combination list as
when applied to the mapping restricted to the non-empty groups. The length
bound keeps the character-code labels below the surrogate range, the regime
in which the embedding of the JS single-code-unit labels is faithful. -/
theorem gVC_expandItems_filter (items : List Nat) (k : Nat) (hk : 1 ≤ k)
    (hlen : items.length ≤ 55231) :
    generateValidCombinations (expandItems items) k
      = generateValidCombinations
          ((expandItems items).filter (fun g => !g.snd.isEmpty)) k :=
  gVC_filter (expandItems items) (expandItems_keys_nodup items hlen) k

/-- Witness for C10 at `items = [1, 0, 2]`, `k = 2`: the empty group `B` is
ignored either way. -/
theorem gVC_expandItems_filter_witness :
    generateValidCombinations (expandItems [1, 0, 2]) 2
      = generateValidCombinations
          ((expandItems [1, 0, 2]).filter (fun g => !g.snd.isEmpty)) 2 ∧
    generateValidCombinations (expandItems [1, 0, 2]) 2
      = [["A1", "C1"], ["A1", "C2"]] := by
  refine ⟨gVC_expandItems_filter [1, 0, 2] 2 (by decide) (by decide), ?_⟩
  decide

/-- Characters with equal code points are equal. -/
theorem char_eq_of_toNat_eq {a b : Char} (h : a.toNat = b.toNat) : a = b :=
  Char.eq_of_val_eq (UInt32.toNat.inj h)

/-- The JS string comparison is transitive. -/
theorem charsLe_trans : ∀ x y z : List Char,
    charsLe x y = true → charsLe y z = true → charsLe x z = true
  | [], _, _, _, _ => by simp [charsLe]
  | a :: as, [], _, hxy, _ => by simp [charsLe] at hxy
  | _ :: _, _ :: _, [], _, hyz => by simp [charsLe] at hyz
  | a :: as, b :: bs, c :: cs, hxy, hyz => by
    simp only [charsLe] at hxy hyz ⊢
    rcases Nat.lt_trichotomy a.toNat b.toNat with hab | hab | hab
    · rcases Nat.lt_trichotomy b.toNat c.toNat with hbc | hbc | hbc
      · rw [if_pos (by omega)]
      · rw [if_pos (by omega)]
      · rw [if_neg (by omega), if_pos hbc] at hyz
        exact absurd hyz (by simp)
    · rcases Nat.lt_trichotomy b.toNat c.toNat with hbc | hbc | hbc
      · rw [if_pos (by omega)]
      · rw [if_neg (by omega : ¬ a.toNat < b.toNat),
          if_neg (by omega : ¬ b.toNat < a.toNat)] at hxy
        rw [if_neg (by omega : ¬ b.toNat < c.toNat),
          if_neg (by omega : ¬ c.toNat < b.toNat)] at hyz
        rw [if_neg (by omega : ¬ a.toNat < c.toNat),
          if_neg (by omega : ¬ c.toNat < a.toNat)]
        exact charsLe_trans as bs cs hxy hyz
      · rw [if_neg (by omega), if_pos hbc] at hyz
        exact absurd hyz (by simp)
    · rw [if_neg (by omega), if_pos hab] at hxy
      exact absurd hxy (by simp)

/-- The JS string comparison is total. -/
theorem charsLe_total : ∀ x y : List Char,
    charsLe x y = true ∨ charsLe y x = true
  | [], _ => Or.inl (by simp [charsLe])
  | _ :: _, [] => Or.inr (by simp [charsLe])
  | a :: as, b :: bs => by
    simp only [charsLe]
    rcases Nat.lt_trichotomy a.toNat b.toNat with h | h | h
    · left
      rw [if_pos h]
    · have h1 : ¬ a.toNat < b.toNat := by omega
      have h2 : ¬ b.toNat < a.toNat := by omega
      rw [if_neg h1, if_neg h2, if_neg h2, if_neg h1]
      exact charsLe_total as bs
    · right
      rw [if_pos h]

/-- The JS string comparison is antisymmetric. -/
theorem charsLe_antisymm : ∀ x y : List Char,
    charsLe x y = true → charsLe y x = true → x = y
  | [], [], _, _ => rfl
  | [], _ :: _, _, hyx => by simp [charsLe] at hyx
  | _ :: _, [], hxy, _ => by simp [charsLe] at hxy
  | a :: as, b :: bs, hxy, hyx => by
    simp only [charsLe] at hxy hyx
    rcases Nat.lt_trichotomy a.toNat b.toNat with h | h | h
    · rw [if_neg (by omega), if_pos h] at hyx
      exact absurd hyx (by simp)
    · have h1 : ¬ a.toNat < b.toNat := by omega
      have h2 : ¬ b.toNat < a.toNat := by omega
      rw [if_neg h1, if_neg h2] at hxy
      rw [if_neg h2, if_neg h1] at hyx
      rw [char_eq_of_toNat_eq h, charsLe_antisymm as bs hxy hyx]
    · rw [if_neg (by omega), if_pos h] at hxy
      exact absurd hxy (by simp)
  termination_by x y => x.length

instance : IsTrans String (fun a b => strLe a b = true) :=
  ⟨fun _ _ _ => charsLe_trans _ _ _⟩

instance : IsTotal String (fun a b => strLe a b = true) :=
  ⟨fun _ _ => charsLe_total _ _⟩

instance : IsAntisymm String (fun a b => strLe a b = true) :=
  ⟨fun a b h1 h2 => by
    cases a
    cases b
    exact congrArg String.mk (charsLe_antisymm _ _ h1 h2)⟩

/-- Sorting by the JS comparator is invariant under permutation of the
input. -/
theorem insertionSort_perm_eq (c₁ c₂ : List String) (h : c₁.Perm c₂) :
    List.insertionSort (fun a b => strLe a b = true) c₁
      = List.insertionSort (fun a b => strLe a b = true) c₂ :=
  List.eq_of_perm_of_sorted
    ((List.perm_insertionSort _ c₁).trans (h.trans (List.perm_insertionSort _ c₂).symm))
    (List.sorted_insertionSort _ c₁) (List.sorted_insertionSort _ c₂)

/-- On the computed path (valid input, enough groups) the service runs the
full transactional hand-off and returns the new identifier together with
the complete generated combination list. -/
theorem generateAndStore_computed (newId : Nat) (items : List Nat) (len : Int)
    (h1 : 1 ≤ len) (hne : items ≠ []) (hlen : len ≤ (items.length : Int)) :
    generateAndStore newId (some items) len
      = (Except.ok
           { id := some newId,
             combination := generateValidCombinations (expandItems items) len.toNat },
         [DbEvent.acquireConn, DbEvent.beginTx, DbEvent.insertResponse,
          DbEvent.insertItems, DbEvent.insertCombinations, DbEvent.commitTx,
          DbEvent.releaseConn]) := by
  have hie : items.isEmpty = false := by
    cases hx : items.isEmpty
    · rfl
    · exact absurd (List.isEmpty_iff.mp hx) hne
  have hcond : ¬ ((expandItems items).length : Int) < len := by
    rw [expandItems, expandItemsAux_length]
    omega
  simp only [generateAndStore, if_neg (by omega : ¬ len < 1), hie,
    Bool.false_eq_true, if_false, if_neg hcond]

/-- On valid input with more groups than the requested length, the service
short-circuits to the empty result without any persistence event. -/
theorem generateAndStore_shortCircuit (newId : Nat) (items : List Nat) (len : Int)
    (h1 : 1 ≤ len) (hne : items ≠ []) (hlen : (items.length : Int) < len) :
    generateAndStore newId (some items) len
      = (Except.ok { id := none, combination := [] }, []) := by
  have hie : items.isEmpty = false := by
    cases hx : items.isEmpty
    · rfl
    · exact absurd (List.isEmpty_iff.mp hx) hne
  have hcond : ((expandItems items).length : Int) < len := by
    rw [expandItems, expandItemsAux_length]
    omega
  simp only [generateAndStore, if_neg (by omega : ¬ len < 1), hie,
    Bool.false_eq_true, if_false, if_pos hcond]

/-- C1 (amended): for valid input the service returns the empty result
(identifier absent, combination list empty) with no persistence event
exactly when `length` exceeds the total number of groups — the length of
`items`, counting the empty groups — rather than the number of non-empty
groups. -/
theorem generateAndStore_empty_iff (newId : Nat) (items : List Nat) (len : Int)
    (hne : items ≠ []) (h1 : 1 ≤ len) :
    (generateAndStore newId (some items) len
        = (Except.ok { id := none, combination := [] }, []))
      ↔ (items.length : Int) < len := by
  constructor
  · intro h
    by_contra hc
    rw [generateAndStore_computed newId items len h1 hne (by omega)] at h
    simp [GenResult.mk.injEq] at h
  · intro h
    exact generateAndStore_shortCircuit newId items len h1 hne h

/-- Witness for the amended C1 at `items = [1, 1]`, `length = 3`. -/
theorem generateAndStore_empty_iff_witness :
    generateAndStore 1 (some [1, 1]) 3
      = (Except.ok { id := none, combination := [] }, []) :=
  (generateAndStore_empty_iff 1 [1, 1] 3 (by decide) (by decide)).mpr (by decide)

/-- Counterexample to C1 as stated: `items = [1, 0]`, `length = 2` is valid
input with exactly one non-empty group, so the claim demands the empty
result with untouched persistence; the code instead compares against the
total group count (2), computes, runs the full transaction, and returns
identifier 1 with an empty combination list. -/
theorem generateAndStore_empty_counterexample :
    ((expandItems [1, 0]).filter (fun g => !g.snd.isEmpty)).length = 1 ∧
    generateAndStore 1 (some [1, 0]) 2
      = (Except.ok { id := some 1, combination := [] },
         [DbEvent.acquireConn, DbEvent.beginTx, DbEvent.insertResponse,
          DbEvent.insertItems, DbEvent.insertCombinations, DbEvent.commitTx,
          DbEvent.releaseConn]) := by
  exact ⟨by decide, by decide⟩

/-- C6: the service rejects with "length must be >= 1" exactly when
`length < 1`; otherwise it rejects with "items must be a non-empty array"
exactly when items is not an array or is empty; a rejection carries no
persistence event; valid input is never rejected. -/
theorem generateAndStore_validation (newId : Nat) (items : Option (List Nat))
    (len : Int) :
    ((generateAndStore newId items len).1 = Except.error "length must be >= 1"
      ↔ len < 1) ∧
    (1 ≤ len →
      ((generateAndStore newId items len).1
          = Except.error "items must be a non-empty array"
        ↔ items = none ∨ items = some [])) ∧
    (∀ e, (generateAndStore newId items len).1 = Except.error e →
      (generateAndStore newId items len).2 = []) ∧
    (∀ l, items = some l → 1 ≤ len → l ≠ [] →
      ∃ r, (generateAndStore newId items len).1 = Except.ok r) := by
  by_cases hlen : len < 1
  · refine ⟨?_, ?_, ?_, ?_⟩
    · simp [generateAndStore, hlen]
    · intro h1
      exact absurd h1 (by omega)
    · intro e _
      simp [generateAndStore, hlen]
    · intro l hl h1 _
      exact absurd h1 (by omega)
  · cases items with
    | none =>
      refine ⟨?_, ?_, ?_, ?_⟩
      · simp [generateAndStore, hlen]
      · intro _
        simp [generateAndStore, hlen]
      · intro e _
        simp [generateAndStore, hlen]
      · intro l hl _ _
        exact absurd hl (by simp)
    | some l =>
      cases hie : l.isEmpty with
      | true =>
        have hl0 : l = [] := List.isEmpty_iff.mp hie
        subst hl0
        refine ⟨?_, ?_, ?_, ?_⟩
        · simp [generateAndStore, hlen]
        · intro _
          simp [generateAndStore, hlen]
        · intro e _
          simp [generateAndStore, hlen]
        · intro l2 hl2 _ hne2
          injection hl2 with hl2
          exact absurd hl2.symm hne2
      | false =>
        have hne : l ≠ [] := by
          intro h
          rw [h] at hie
          simp at hie
        have hok : ∃ r, (generateAndStore newId (some l) len).1 = Except.ok r := by
          simp only [generateAndStore, if_neg hlen, hie, Bool.false_eq_true,
            if_false]
          by_cases hc : ((expandItems l).length : Int) < len
          · rw [if_pos hc]
            exact ⟨_, rfl⟩
          · rw [if_neg hc]
            exact ⟨_, rfl⟩
        obtain ⟨r, hr⟩ := hok
        refine ⟨?_, ?_, ?_, ?_⟩
        · rw [hr]
          simp [hlen]
        · intro _
          rw [hr]
          simp [hne]
        · intro e he
          rw [hr] at he
          exact absurd he (by simp)
        · intro l2 hl2 _ _
          injection hl2 with hl2
          subst hl2
          exact ⟨r, hr⟩

/-- Witness for C6: the length rejection at `length = 0` and the
non-rejection of the valid input `([1, 2], 2)`. -/
theorem generateAndStore_validation_witness :
    (generateAndStore 1 (some [1, 2]) 0).1 = Except.error "length must be >= 1" ∧
    ∃ r, (generateAndStore 1 (some [1, 2]) 2).1 = Except.ok r := by
  constructor
  · exact ((generateAndStore_validation 1 (some [1, 2]) 0).1).mpr (by decide)
  · exact (generateAndStore_validation 1 (some [1, 2]) 2).2.2.2 [1, 2] rfl
      (by decide) (by decide)

/-- C8: the storage key of a combination is its sorted, `|`-joined item
labels, so permuted combinations collide on the key; the returned result
list is the full generated list, unaffected by any key collision. -/
theorem combinationKey_spec :
    (∀ c₁ c₂ : List String, c₁.Perm c₂ → combinationKey c₁ = combinationKey c₂) ∧
    (∀ (newId : Nat) (items : List Nat) (len : Int),
      1 ≤ len → items ≠ [] → len ≤ (items.length : Int) →
      (generateAndStore newId (some items) len).1
        = Except.ok
            { id := some newId,
              combination := generateValidCombinations (expandItems items) len.toNat }) := by
  constructor
  · intro c₁ c₂ h
    unfold combinationKey
    rw [insertionSort_perm_eq c₁ c₂ h]
  · intro newId items len h1 hne hlen
    rw [generateAndStore_computed newId items len h1 hne hlen]

/-- Witness for C8: the permuted pair `[B1, A1]` / `[A1, B1]` shares one
key, and the computed result for `([1, 1], 2)` is the full list. -/
theorem combinationKey_spec_witness :
    combinationKey ["B1", "A1"] = combinationKey ["A1", "B1"] ∧
    (generateAndStore 1 (some [1, 1]) 2).1
      = Except.ok { id := some 1, combination := [["A1", "B1"]] } := by
  constructor
  · exact combinationKey_spec.1 ["B1", "A1"] ["A1", "B1"]
      (List.Perm.swap "A1" "B1" [])
  · have h := combinationKey_spec.2 1 [1, 1] 2 (by decide) (by decide) (by decide)
    rw [h]
    decide

/-- C9: `withTransaction` never commits a failing unit of work — it rolls
back and propagates the error; a succeeding unit is committed and its value
returned; the connection is released last on every exit path. -/
theorem withTransaction_spec (r : Except String Nat) :
    (∀ e, r = Except.error e →
      (withTransaction r).1 = Except.error e ∧
      TxEvent.commit ∉ (withTransaction r).2 ∧
      TxEvent.rollback ∈ (withTransaction r).2) ∧
    (∀ v, r = Except.ok v →
      (withTransaction r).1 = Except.ok v ∧
      TxEvent.commit ∈ (withTransaction r).2 ∧
      TxEvent.rollback ∉ (withTransaction r).2) ∧
    (withTransaction r).2.getLast? = some TxEvent.release := by
  cases r with
  | ok v =>
    refine ⟨?_, ?_, rfl⟩
    · intro e he
      exact absurd he (by simp)
    · intro v' hv
      injection hv with hv
      subst hv
      exact ⟨rfl, by simp [withTransaction], by simp [withTransaction]⟩
  | error e =>
    refine ⟨?_, ?_, rfl⟩
    · intro e' he
      injection he with he
      subst he
      exact ⟨rfl, by simp [withTransaction], by simp [withTransaction]⟩
    · intro v hv
      exact absurd hv (by simp)

/-- Witness for C9 at the failing unit of work `error "boom"`. -/
theorem withTransaction_spec_witness :
    (withTransaction (Except.error "boom")).1 = Except.error "boom" ∧
    TxEvent.commit ∉ (withTransaction (Except.error "boom")).2 ∧
    TxEvent.rollback ∈ (withTransaction (Except.error "boom")).2 :=
  (withTransaction_spec (Except.error "boom")).1 "boom" rfl

end CombinationsApi
